import Mathlib

/-!
Verification of the tool-call reconciliation core of
`cf-agents-starter-browserrendering-tool` (src/server.ts, `processToolCalls`,
together with the tool registry of src/tools.ts).

The embedding models:
  * the message / part data model (`Message`, `Part`, `ToolInvocation`);
  * the transcript-repair loop (`repairMessage`, `repairMessages`,
    server.ts lines 242-264);
  * the per-part reconciliation step (`processPart`, lines 271-326) and the
    fan-out / fan-in over the last message's parts (`reconcile`,
    lines 266-330);
  * `processToolCalls` = repair followed by reconcile.

Effects are made explicit: stream writes become a returned list of
`StreamEvent`s, executor invocations are logged as `ExecCall` records, a
thrown executor exception becomes `Except.error`, and the TypeError raised
on an empty transcript (dereferencing the absent last message) becomes
`PtcError.emptyTranscript`.
-/

namespace Ptc

/-- Tool-call arguments; kept opaque as a string (for the one concrete
executor, `getWeatherInformation`, it is the `city` field). -/
abbrev Args := String

/-- A tool result value; opaque serializable value, modelled as a string. -/
abbrev ResultVal := String

/-- A tool invocation embedded in a message part: `{ toolName, toolCallId,
args, state, result? }`.  `result = none` models the absence of the
`result` field. -/
structure ToolInvocation where
  toolName : String
  toolCallId : String
  args : Args
  state : String
  result : Option ResultVal
deriving DecidableEq

/-- A message part: the tagged union of text parts, tool-invocation parts
and any other part kind (kept abstract). -/
inductive Part where
  | text (text : String)
  | toolInvocation (ti : ToolInvocation)
  | other (kind : String) (payload : String)
deriving DecidableEq

/-- A chat message.  `parts = none` models a message object without a
`parts` field. -/
structure Message where
  id : String
  role : String
  content : String
  parts : Option (List Part)
deriving DecidableEq

/-- A model-agnostic core message, as produced by the external ai-sdk
`convertToCoreMessages` helper. -/
structure CoreMessage where
  role : String
  content : String
deriving DecidableEq

/-- Models the external ai-sdk `convertToCoreMessages` call: the full
message history converted to core form. -/
def convertToCoreMessages (ms : List Message) : List CoreMessage :=
  ms.map fun m => ⟨m.role, m.content⟩

/-- The context handed to an executor: the converted message history and
the invocation's `toolCallId` (the second argument built at
server.ts lines 296-299). -/
structure ExecContext where
  messages : List CoreMessage
  toolCallId : String
deriving DecidableEq

/-- An executor from the Execution Table.  `Except.error e` models a
thrown exception with message `e`; `Except.ok v` a resolved value. -/
abbrev Executor := Args → ExecContext → Except String ResultVal

/-- The Execution Table: tool name to executor, `none` when the name has
no entry (`toolName in executions` is false). -/
abbrev ExecutionTable := String → Option Executor

/-- Record of one executor invocation: which tool was run, with which
args and context.  Used to state "invoked exactly once". -/
structure ExecCall where
  toolName : String
  args : Args
  ctx : ExecContext
deriving DecidableEq

/-- A `tool_result` event written to the data stream:
`(toolCallId, result)` (server.ts lines 311-316). -/
abbrev StreamEvent := String × ResultVal

/-- Modelled from the spec: the `APPROVAL` sentinel constants are imported
from `./shared`, a file absent from the provided sources.  The spec fixes
them as "one of exactly two sentinel string values, `APPROVED` and
`DENIED`, distinct from any legitimate tool output string". -/
def APPROVAL.YES : String := "APPROVED"

/-- Modelled from the spec: the denial sentinel, see `APPROVAL.YES`. -/
def APPROVAL.NO : String := "DENIED"

/-- The literal denial result string (server.ts line 304). -/
def deniedResult : String := "Error: User denied access to tool execution"

/-- The literal defensive error string when a table entry has no executor
(server.ts line 301). -/
def noExecuteResult : String := "Error: No execute function found on tool"

/-- Transcript repair of a single message (server.ts lines 242-263): an
assistant message whose first part is a tool invocation stuck in state
`call` with no `result` field has that part replaced by a plain text part
reading "tool execution failed". -/
def repairMessage (m : Message) : Message :=
  if m.role = "assistant" then
    match m.parts with
    | some (Part.toolInvocation ti :: rest) =>
      if ti.state = "call" ∧ ti.result = none then
        { m with parts := some (Part.text "tool execution failed" :: rest) }
      else m
    | _ => m
  else m

/-- The transcript-repair pass over the full message list. -/
def repairMessages (ms : List Message) : List Message :=
  ms.map repairMessage

/-- Reconciliation of one part of the last message (the body of the
`parts.map` at server.ts lines 271-326).  Returns the resolved part, the
stream events written for it, and the executor invocations it performed;
`Except.error` models a rejection of the mapper's promise (an executor
throwing). -/
def processPart (E : ExecutionTable) (messages : List Message) (part : Part) :
    Except String (Part × List StreamEvent × List ExecCall) :=
  match part with
  | Part.toolInvocation ti =>
    if (E ti.toolName).isNone ∨ ti.state ≠ "result" then
      Except.ok (part, [], [])
    else if ti.result = some APPROVAL.YES then
      if (E ti.toolName).isNone ∨ ti.state ≠ "result" then
        Except.ok (part, [], [])
      else
        match E ti.toolName with
        | some f =>
          match f ti.args ⟨convertToCoreMessages messages, ti.toolCallId⟩ with
          | Except.error e => Except.error e
          | Except.ok v =>
            Except.ok (Part.toolInvocation { ti with result := some v },
              [(ti.toolCallId, v)],
              [⟨ti.toolName, ti.args, ⟨convertToCoreMessages messages, ti.toolCallId⟩⟩])
        | none =>
          Except.ok (Part.toolInvocation { ti with result := some noExecuteResult },
            [(ti.toolCallId, noExecuteResult)], [])
    else if ti.result = some APPROVAL.NO then
      Except.ok (Part.toolInvocation { ti with result := some deniedResult },
        [(ti.toolCallId, deniedResult)], [])
    else
      Except.ok (part, [], [])
  | _ => Except.ok (part, [], [])

/-- Sequenced fan-out over the parts of the last message (the
`Promise.all(parts.map ...)` at server.ts line 270): the first rejected
mapper rejects the whole reconciliation. -/
def processParts (E : ExecutionTable) (messages : List Message) :
    List Part → Except String (List (Part × List StreamEvent × List ExecCall))
  | [] => Except.ok []
  | p :: ps =>
    match processPart E messages p with
    | Except.error e => Except.error e
    | Except.ok t =>
      match processParts E messages ps with
      | Except.error e => Except.error e
      | Except.ok ts => Except.ok (t :: ts)

/-- How a reconciliation call can fail: `emptyTranscript` models the
TypeError thrown at server.ts line 267 when `messages` is empty (reading
`.parts` of `undefined`); `executorThrow` a rejected executor promise. -/
inductive PtcError where
  | emptyTranscript
  | executorThrow (msg : String)
deriving DecidableEq

/-- The Invocation Reconciler (server.ts lines 266-330): inspects the last
message, resolves its parts against the Execution Table, and returns the
rewritten transcript together with the stream events written and the
executor invocations performed. -/
def reconcile (E : ExecutionTable) (messages : List Message) :
    Except PtcError (List Message × List StreamEvent × List ExecCall) :=
  match messages.getLast? with
  | none => Except.error PtcError.emptyTranscript
  | some lastMessage =>
    match lastMessage.parts with
    | none => Except.ok (messages, [], [])
    | some parts =>
      match processParts E messages parts with
      | Except.error e => Except.error (PtcError.executorThrow e)
      | Except.ok ts =>
        Except.ok (messages.dropLast ++ [{ lastMessage with parts := some (ts.map Prod.fst) }],
          (ts.map fun t => t.2.1).flatten,
          (ts.map fun t => t.2.2).flatten)

/-- `processToolCalls` (server.ts lines 220-331): the in-place repair loop
followed by reconciliation of the last message. -/
def processToolCalls (E : ExecutionTable) (messages : List Message) :
    Except PtcError (List Message × List StreamEvent × List ExecCall) :=
  reconcile E (repairMessages messages)

/-- The one confirmation-required executor of src/tools.ts
(`executions.getWeatherInformation`): returns a fixed sunny-weather
string built from the `city` argument. -/
def getWeatherInformationExecute : Executor :=
  fun args _ctx => Except.ok ("The weather in " ++ args ++ " is sunny")

/-- The concrete Execution Table of src/tools.ts: only
`getWeatherInformation` (the only tool defined without an inline
`execute`) has an entry. -/
def executionsTable : ExecutionTable :=
  fun name =>
    if name = "getWeatherInformation" then some getWeatherInformationExecute
    else none

/-- A part the reconciler passes through unchanged: not a tool invocation,
or an unregistered tool, or not in state `result`, or a `result` holding
neither sentinel. -/
def untouched (E : ExecutionTable) (p : Part) : Prop :=
  match p with
  | Part.toolInvocation ti =>
    (E ti.toolName).isNone ∨ ti.state ≠ "result" ∨
      (ti.result ≠ some APPROVAL.YES ∧ ti.result ≠ some APPROVAL.NO)
  | _ => True

/-- Two parts agreeing on everything except possibly the invocation's
`result` field: either equal, or both tool invocations with the same
`toolName`, `args`, `state` and `toolCallId`. -/
def differsOnlyInResult (p q : Part) : Prop :=
  q = p ∨
    match p, q with
    | Part.toolInvocation ti, Part.toolInvocation ti' =>
      ti'.toolName = ti.toolName ∧ ti'.args = ti.args ∧
        ti'.state = ti.state ∧ ti'.toolCallId = ti.toolCallId
    | _, _ => False

/-- The stream events the spec mandates for one input part paired with
its resolved output part: exactly one event `(toolCallId, result)` when
the part's result was just computed (a registered tool, state `result`,
holding an approval sentinel), none otherwise. -/
def specEventsOfPair (E : ExecutionTable) (p q : Part) : List StreamEvent :=
  match p, q with
  | Part.toolInvocation ti, Part.toolInvocation ti2 =>
    if (E ti.toolName).isSome ∧ ti.state = "result" ∧
        (ti.result = some APPROVAL.YES ∨ ti.result = some APPROVAL.NO) then
      match ti2.result with
      | some r => [(ti2.toolCallId, r)]
      | none => []
    else []
  | _, _ => []

/-- The spec-side event list for a whole last message: the concatenation,
in part order, of each pair's mandated events. -/
def specEvents (E : ExecutionTable) (l : List (Part × Part)) : List StreamEvent :=
  (l.map fun pq => specEventsOfPair E pq.1 pq.2).flatten

/-- A message in the broken intermediate state targeted by Transcript
Repair: an assistant message whose first part is a ToolInvocationPart in
state `call` with no `result` field. -/
def stuckCall (m : Message) : Prop :=
  m.role = "assistant" ∧ ∃ ti rest, m.parts = some (Part.toolInvocation ti :: rest) ∧
    ti.state = "call" ∧ ti.result = none

/-- An executor that models a tool throwing an exception. -/
def throwingExecutor : Executor := fun _ _ => Except.error "boom"

/-- An Execution Table with a single confirmation-required tool whose
executor throws. -/
def throwTable : ExecutionTable :=
  fun name => if name = "badTool" then some throwingExecutor else none


theorem untouched_processPart (E : ExecutionTable) (msgs : List Message) (p : Part)
    (h : untouched E p) : processPart E msgs p = Except.ok (p, [], []) := by
  cases p with
  | text t => rfl
  | other k pl => rfl
  | toolInvocation ti =>
    simp only [untouched] at h
    simp only [processPart]
    rcases h with h | h | h
    · rw [if_pos (Or.inl h)]
    · rw [if_pos (Or.inr h)]
    · by_cases hc : (E ti.toolName).isNone ∨ ti.state ≠ "result"
      · rw [if_pos hc]
      · rw [if_neg hc, if_neg h.1, if_neg h.2]

theorem processPart_approved (E : ExecutionTable) (msgs : List Message)
    (ti : ToolInvocation) (f : Executor) (v : ResultVal)
    (hf : E ti.toolName = some f) (hstate : ti.state = "result")
    (hres : ti.result = some APPROVAL.YES)
    (hv : f ti.args ⟨convertToCoreMessages msgs, ti.toolCallId⟩ = Except.ok v) :
    processPart E msgs (Part.toolInvocation ti) =
      Except.ok (Part.toolInvocation { ti with result := some v },
        [(ti.toolCallId, v)],
        [⟨ti.toolName, ti.args, ⟨convertToCoreMessages msgs, ti.toolCallId⟩⟩]) := by
  have hguard : ¬ ((E ti.toolName).isNone ∨ ti.state ≠ "result") := by
    simp [hf, hstate]
  simp only [processPart]
  rw [if_neg hguard, if_pos hres, if_neg hguard]
  simp only [hf]
  simp only [hv]

theorem processPart_approved_throw (E : ExecutionTable) (msgs : List Message)
    (ti : ToolInvocation) (f : Executor) (e : String)
    (hf : E ti.toolName = some f) (hstate : ti.state = "result")
    (hres : ti.result = some APPROVAL.YES)
    (hv : f ti.args ⟨convertToCoreMessages msgs, ti.toolCallId⟩ = Except.error e) :
    processPart E msgs (Part.toolInvocation ti) = Except.error e := by
  have hguard : ¬ ((E ti.toolName).isNone ∨ ti.state ≠ "result") := by
    simp [hf, hstate]
  simp only [processPart]
  rw [if_neg hguard, if_pos hres, if_neg hguard]
  simp only [hf]
  simp only [hv]

theorem processPart_denied (E : ExecutionTable) (msgs : List Message)
    (ti : ToolInvocation) (f : Executor)
    (hf : E ti.toolName = some f) (hstate : ti.state = "result")
    (hres : ti.result = some APPROVAL.NO) :
    processPart E msgs (Part.toolInvocation ti) =
      Except.ok (Part.toolInvocation { ti with result := some deniedResult },
        [(ti.toolCallId, deniedResult)], []) := by
  have hguard : ¬ ((E ti.toolName).isNone ∨ ti.state ≠ "result") := by
    simp [hf, hstate]
  have hyes : ¬ ti.result = some APPROVAL.YES := by
    rw [hres]
    simp [APPROVAL.YES, APPROVAL.NO]
  simp only [processPart]
  rw [if_neg hguard, if_neg hyes, if_pos hres]

theorem processParts_untouched (E : ExecutionTable) (msgs : List Message)
    (ps : List Part) (h : ∀ p ∈ ps, untouched E p) :
    processParts E msgs ps = Except.ok (ps.map fun p => (p, ([] : List StreamEvent), ([] : List ExecCall))) := by
  induction ps with
  | nil => rfl
  | cons p ps ih =>
    simp only [processParts]
    rw [untouched_processPart E msgs p (h p (List.mem_cons_self p ps)),
      ih fun q hq => h q (List.mem_cons_of_mem p hq)]
    rfl

theorem processParts_cons_ok (E : ExecutionTable) (msgs : List Message)
    (p : Part) (ps : List Part) (t : Part × List StreamEvent × List ExecCall)
    (ts : List (Part × List StreamEvent × List ExecCall))
    (hp : processPart E msgs p = Except.ok t)
    (hps : processParts E msgs ps = Except.ok ts) :
    processParts E msgs (p :: ps) = Except.ok (t :: ts) := by
  simp only [processParts]
  simp only [hp]
  simp only [hps]

theorem processParts_cons_ok_inv (E : ExecutionTable) (msgs : List Message)
    (p : Part) (ps : List Part)
    (as : List (Part × List StreamEvent × List ExecCall))
    (h : processParts E msgs (p :: ps) = Except.ok as) :
    ∃ t ts, processPart E msgs p = Except.ok t ∧
      processParts E msgs ps = Except.ok ts ∧ as = t :: ts := by
  simp only [processParts] at h
  split at h
  · exact Except.noConfusion h
  next t heq =>
    split at h
    · exact Except.noConfusion h
    next ts heq2 =>
      refine ⟨t, ts, heq, heq2, ?_⟩
      injection h
      simp_all

theorem processParts_append_ok (E : ExecutionTable) (msgs : List Message)
    (xs ys : List Part) (as bs : List (Part × List StreamEvent × List ExecCall))
    (hx : processParts E msgs xs = Except.ok as)
    (hy : processParts E msgs ys = Except.ok bs) :
    processParts E msgs (xs ++ ys) = Except.ok (as ++ bs) := by
  induction xs generalizing as with
  | nil =>
    simp only [processParts] at hx
    cases hx
    simpa using hy
  | cons x xs ih =>
    obtain ⟨t, ts, hpx, hxs, rfl⟩ := processParts_cons_ok_inv E msgs x xs as hx
    rw [List.cons_append]
    exact processParts_cons_ok E msgs x (xs ++ ys) t (ts ++ bs) hpx (ih ts hxs)

theorem flatten_of_nils {α : Type} (l : List (List α)) (h : ∀ x ∈ l, x = []) :
    l.flatten = [] := by
  induction l with
  | nil => rfl
  | cons x l ih =>
    rw [List.flatten_cons, h x (List.mem_cons_self x l),
      ih fun y hy => h y (List.mem_cons_of_mem x hy)]
    rfl

theorem differsOnlyInResult_refl (p : Part) : differsOnlyInResult p p :=
  Or.inl rfl

theorem differsOnlyInResult_update (ti : ToolInvocation) (r : Option ResultVal) :
    differsOnlyInResult (Part.toolInvocation ti) (Part.toolInvocation { ti with result := r }) :=
  Or.inr ⟨rfl, rfl, rfl, rfl⟩

theorem processPart_shape (E : ExecutionTable) (msgs : List Message) (p p' : Part)
    (ev : List StreamEvent) (c : List ExecCall)
    (h : processPart E msgs p = Except.ok (p', ev, c)) :
    differsOnlyInResult p p' := by
  cases p with
  | text t =>
    simp only [processPart, Except.ok.injEq, Prod.mk.injEq] at h
    exact h.1 ▸ differsOnlyInResult_refl _
  | other k pl =>
    simp only [processPart, Except.ok.injEq, Prod.mk.injEq] at h
    exact h.1 ▸ differsOnlyInResult_refl _
  | toolInvocation ti =>
    simp only [processPart] at h
    repeat' split at h
    all_goals
      first
      | exact Except.noConfusion h
      | (simp only [Except.ok.injEq, Prod.mk.injEq] at h
         exact h.1 ▸ differsOnlyInResult_refl _)
      | (simp only [Except.ok.injEq, Prod.mk.injEq] at h
         exact h.1 ▸ differsOnlyInResult_update ti _)

theorem processParts_pointwise (E : ExecutionTable) (msgs : List Message)
    (ps : List Part) (ts : List (Part × List StreamEvent × List ExecCall))
    (h : processParts E msgs ps = Except.ok ts) :
    ts.length = ps.length ∧
      ∀ (i : Nat) (p : Part), ps[i]? = some p →
        ∃ t, ts[i]? = some t ∧ processPart E msgs p = Except.ok t := by
  induction ps generalizing ts with
  | nil =>
    simp only [processParts] at h
    cases h
    exact ⟨rfl, by intro i p hp; simp at hp⟩
  | cons q qs ih =>
    obtain ⟨t, ts', hq, hqs, rfl⟩ := processParts_cons_ok_inv E msgs q qs ts h
    obtain ⟨hlen, hpt⟩ := ih ts' hqs
    refine ⟨by simp [hlen], ?_⟩
    intro i p hp
    cases i with
    | zero =>
      simp only [List.getElem?_cons_zero, Option.some.injEq] at hp
      refine ⟨t, ?_, hp ▸ hq⟩
      simp
    | succ j =>
      simp only [List.getElem?_cons_succ] at hp ⊢
      exact hpt j p hp

theorem reconcile_ok_inv (E : ExecutionTable) (ms out : List Message)
    (evs : List StreamEvent) (calls : List ExecCall)
    (h : reconcile E ms = Except.ok (out, evs, calls)) :
    ∃ lm, ms.getLast? = some lm ∧
      ((lm.parts = none ∧ out = ms ∧ evs = [] ∧ calls = []) ∨
       (∃ ps ts, lm.parts = some ps ∧ processParts E ms ps = Except.ok ts ∧
         out = ms.dropLast ++ [{ lm with parts := some (ts.map Prod.fst) }] ∧
         evs = (ts.map fun t => t.2.1).flatten ∧
         calls = (ts.map fun t => t.2.2).flatten)) := by
  simp only [reconcile] at h
  split at h
  · exact Except.noConfusion h
  next lm heq =>
    refine ⟨lm, heq, ?_⟩
    split at h
    next hnone =>
      simp only [Except.ok.injEq, Prod.mk.injEq] at h
      exact Or.inl ⟨hnone, h.1.symm, h.2.1.symm, h.2.2.symm⟩
    next ps hps =>
      split at h
      · exact Except.noConfusion h
      next ts hts =>
        simp only [Except.ok.injEq, Prod.mk.injEq] at h
        exact Or.inr ⟨ps, ts, hps, hts, h.1.symm, h.2.1.symm, h.2.2.symm⟩

theorem reconcile_ok_concat (E : ExecutionTable) (pms : List Message) (lm : Message)
    (ps : List Part) (ts : List (Part × List StreamEvent × List ExecCall))
    (hparts : lm.parts = some ps)
    (hts : processParts E (pms ++ [lm]) ps = Except.ok ts) :
    reconcile E (pms ++ [lm]) =
      Except.ok (pms ++ [{ lm with parts := some (ts.map Prod.fst) }],
        (ts.map fun t => t.2.1).flatten,
        (ts.map fun t => t.2.2).flatten) := by
  simp only [reconcile, List.getLast?_concat]
  simp only [hparts]
  simp only [hts]
  rw [List.dropLast_concat]

theorem flatten_map_nil {α β : Type} (l : List α) :
    (l.map fun _ => ([] : List β)).flatten = [] := by
  induction l with
  | nil => rfl
  | cons x l ih =>
    rw [List.map_cons, List.flatten_cons, ih]
    rfl

/-- Claim C1: for a transcript whose last message contains a
ToolInvocationPart in state `result` holding the APPROVED sentinel for a
tool registered in the Execution Table (all sibling parts being
pass-through), the Reconciler invokes that executor exactly once — the
logged invocation list is exactly one call carrying the original `args`
and a context of the full converted message history and the
`toolCallId` — and the corresponding output part's `result` is the
executor's return value. -/
theorem approval_executes_once
    (E : ExecutionTable) (pms : List Message) (lm : Message)
    (pre post : List Part) (ti : ToolInvocation) (f : Executor) (v : ResultVal)
    (hparts : lm.parts = some (pre ++ Part.toolInvocation ti :: post))
    (hpre : ∀ p ∈ pre, untouched E p) (hpost : ∀ p ∈ post, untouched E p)
    (hstate : ti.state = "result") (hres : ti.result = some APPROVAL.YES)
    (hf : E ti.toolName = some f)
    (hv : f ti.args ⟨convertToCoreMessages (pms ++ [lm]), ti.toolCallId⟩ = Except.ok v) :
    reconcile E (pms ++ [lm]) =
      Except.ok
        (pms ++ [{ lm with parts := some (pre ++ Part.toolInvocation { ti with result := some v } :: post) }],
          [(ti.toolCallId, v)],
          [⟨ti.toolName, ti.args, ⟨convertToCoreMessages (pms ++ [lm]), ti.toolCallId⟩⟩]) := by
  have hA := processPart_approved E (pms ++ [lm]) ti f v hf hstate hres hv
  have hPre := processParts_untouched E (pms ++ [lm]) pre hpre
  have hPost := processParts_untouched E (pms ++ [lm]) post hpost
  have hMid := processParts_cons_ok E (pms ++ [lm]) _ post _ _ hA hPost
  have hAll := processParts_append_ok E (pms ++ [lm]) pre (Part.toolInvocation ti :: post)
    _ _ hPre hMid
  rw [reconcile_ok_concat E pms lm _ _ hparts hAll]
  simp [List.map_append, List.map_map, List.flatten_append, List.flatten_cons,
    flatten_map_nil, Function.comp_def, List.map_id]

/-- Claim C1 witness: an approved `getWeatherInformation` invocation in
the last message is executed once against the concrete Execution Table of
src/tools.ts. -/
theorem approval_executes_once_witness :
    reconcile executionsTable
      [⟨"m1", "user", "weather in Paris?", none⟩,
       ⟨"m2", "assistant", "",
         some [Part.toolInvocation ⟨"getWeatherInformation", "call-1", "Paris", "result", some APPROVAL.YES⟩,
               Part.text "ok"]⟩] =
      Except.ok
        ([⟨"m1", "user", "weather in Paris?", none⟩,
          ⟨"m2", "assistant", "",
            some [Part.toolInvocation ⟨"getWeatherInformation", "call-1", "Paris", "result",
                    some "The weather in Paris is sunny"⟩,
                  Part.text "ok"]⟩],
         [("call-1", "The weather in Paris is sunny")],
         [⟨"getWeatherInformation", "Paris",
            ⟨[⟨"user", "weather in Paris?"⟩, ⟨"assistant", ""⟩], "call-1"⟩⟩]) :=
  approval_executes_once executionsTable
    [⟨"m1", "user", "weather in Paris?", none⟩]
    ⟨"m2", "assistant", "",
      some [Part.toolInvocation ⟨"getWeatherInformation", "call-1", "Paris", "result", some APPROVAL.YES⟩,
            Part.text "ok"]⟩
    [] [Part.text "ok"]
    ⟨"getWeatherInformation", "call-1", "Paris", "result", some APPROVAL.YES⟩
    getWeatherInformationExecute "The weather in Paris is sunny"
    rfl
    (by intro p hp; simp at hp)
    (by intro p hp; simp at hp; subst hp; trivial)
    rfl rfl rfl rfl

/-- Claim C2: a ToolInvocationPart of the last message in state `result`
holding the DENIED sentinel for a registered tool is resolved without
ever invoking the executor (the invocation log is empty) and its result
is replaced by the fixed denial error string. -/
theorem denial_short_circuits
    (E : ExecutionTable) (pms : List Message) (lm : Message)
    (pre post : List Part) (ti : ToolInvocation) (f : Executor)
    (hparts : lm.parts = some (pre ++ Part.toolInvocation ti :: post))
    (hpre : ∀ p ∈ pre, untouched E p) (hpost : ∀ p ∈ post, untouched E p)
    (hstate : ti.state = "result") (hres : ti.result = some APPROVAL.NO)
    (hf : E ti.toolName = some f) :
    reconcile E (pms ++ [lm]) =
      Except.ok
        (pms ++ [{ lm with parts := some (pre ++ Part.toolInvocation { ti with result := some deniedResult } :: post) }],
          [(ti.toolCallId, deniedResult)],
          []) := by
  have hD := processPart_denied E (pms ++ [lm]) ti f hf hstate hres
  have hPre := processParts_untouched E (pms ++ [lm]) pre hpre
  have hPost := processParts_untouched E (pms ++ [lm]) post hpost
  have hMid := processParts_cons_ok E (pms ++ [lm]) _ post _ _ hD hPost
  have hAll := processParts_append_ok E (pms ++ [lm]) pre (Part.toolInvocation ti :: post)
    _ _ hPre hMid
  rw [reconcile_ok_concat E pms lm _ _ hparts hAll]
  simp [List.map_append, List.map_map, List.flatten_append, List.flatten_cons,
    flatten_map_nil, Function.comp_def, List.map_id]

/-- Claim C2 witness: a denied `getWeatherInformation` invocation
resolves to the fixed denial string with no executor invocation. -/
theorem denial_short_circuits_witness :
    reconcile executionsTable
      [⟨"m2", "assistant", "",
         some [Part.toolInvocation ⟨"getWeatherInformation", "call-2", "London", "result", some APPROVAL.NO⟩]⟩] =
      Except.ok
        ([⟨"m2", "assistant", "",
            some [Part.toolInvocation ⟨"getWeatherInformation", "call-2", "London", "result",
                    some deniedResult⟩]⟩],
         [("call-2", deniedResult)],
         []) :=
  denial_short_circuits executionsTable []
    ⟨"m2", "assistant", "",
      some [Part.toolInvocation ⟨"getWeatherInformation", "call-2", "London", "result", some APPROVAL.NO⟩]⟩
    [] []
    ⟨"getWeatherInformation", "call-2", "London", "result", some APPROVAL.NO⟩
    getWeatherInformationExecute
    rfl
    (by intro p hp; simp at hp)
    (by intro p hp; simp at hp)
    rfl rfl rfl

theorem reconcile_untouched_at (E : ExecutionTable) (ms out : List Message)
    (evs : List StreamEvent) (calls : List ExecCall) (lm : Message)
    (ps : List Part) (i : Nat) (p : Part)
    (hrec : reconcile E ms = Except.ok (out, evs, calls))
    (hlast : ms.getLast? = some lm) (hparts : lm.parts = some ps)
    (hp : ps[i]? = some p) (hu : untouched E p) :
    ∃ lm2 ps2, out.getLast? = some lm2 ∧ lm2.parts = some ps2 ∧
      ps2[i]? = some p := by
  obtain ⟨lm', hlast', hcase⟩ := reconcile_ok_inv E ms out evs calls hrec
  rw [hlast] at hlast'
  injection hlast' with hlm
  subst hlm
  rcases hcase with ⟨hnone, rfl, _, _⟩ | ⟨ps', ts, hps', hts, hout, _, _⟩
  · rw [hparts] at hnone
    exact Option.noConfusion hnone
  · rw [hparts] at hps'
    injection hps' with hps'
    subst hps'
    obtain ⟨hlen, hpt⟩ := processParts_pointwise E ms ps ts hts
    obtain ⟨t, hti, hpe⟩ := hpt i p hp
    have ht : t = (p, [], []) := by
      rw [untouched_processPart E ms p hu] at hpe
      exact (Except.ok.injEq _ _ ▸ hpe : _ = t).symm ▸ rfl
    subst hout
    refine ⟨{ lm with parts := some (ts.map Prod.fst) }, ts.map Prod.fst,
      List.getLast?_concat _, rfl, ?_⟩
    rw [List.getElem?_map, hti, ht]
    rfl

/-- Claim C3: a ToolInvocationPart of the last message in state `result`
whose result is neither the APPROVED nor the DENIED sentinel is returned
byte-for-byte unchanged at its position by reconciliation, and its
per-part resolution performs no executor invocation and writes no stream
event. -/
theorem no_reexecution_of_resolved_parts (E : ExecutionTable)
    (ms out : List Message) (evs : List StreamEvent) (calls : List ExecCall)
    (lm : Message) (ps : List Part) (i : Nat) (ti : ToolInvocation) (r : ResultVal)
    (hrec : reconcile E ms = Except.ok (out, evs, calls))
    (hlast : ms.getLast? = some lm) (hparts : lm.parts = some ps)
    (hp : ps[i]? = some (Part.toolInvocation ti))
    (hstate : ti.state = "result") (hr : ti.result = some r)
    (hy : r ≠ APPROVAL.YES) (hn : r ≠ APPROVAL.NO) :
    processPart E ms (Part.toolInvocation ti) =
        Except.ok (Part.toolInvocation ti, [], []) ∧
      ∃ lm2 ps2, out.getLast? = some lm2 ∧ lm2.parts = some ps2 ∧
        ps2[i]? = some (Part.toolInvocation ti) := by
  have hu : untouched E (Part.toolInvocation ti) := by
    refine Or.inr (Or.inr ⟨?_, ?_⟩)
    · rw [hr]; intro hc; exact hy (Option.some.injEq _ _ ▸ hc)
    · rw [hr]; intro hc; exact hn (Option.some.injEq _ _ ▸ hc)
  exact ⟨untouched_processPart E ms _ hu,
    reconcile_untouched_at E ms out evs calls lm ps i _ hrec hlast hparts hp hu⟩

/-- Claim C3 witness: an already-resolved `getWeatherInformation`
invocation (result a plain string) passes through reconciliation
unchanged. -/
theorem no_reexecution_of_resolved_parts_witness :
    processPart executionsTable
        [⟨"m", "assistant", "",
          some [Part.toolInvocation ⟨"getWeatherInformation", "c3", "Berlin", "result", some "The weather in Berlin is sunny"⟩]⟩]
        (Part.toolInvocation ⟨"getWeatherInformation", "c3", "Berlin", "result", some "The weather in Berlin is sunny"⟩) =
        Except.ok (Part.toolInvocation ⟨"getWeatherInformation", "c3", "Berlin", "result", some "The weather in Berlin is sunny"⟩, [], []) ∧
      ∃ lm2 ps2,
        ([⟨"m", "assistant", "",
           some [Part.toolInvocation ⟨"getWeatherInformation", "c3", "Berlin", "result", some "The weather in Berlin is sunny"⟩]⟩] :
            List Message).getLast? = some lm2 ∧
        lm2.parts = some ps2 ∧
        ps2[0]? = some (Part.toolInvocation ⟨"getWeatherInformation", "c3", "Berlin", "result", some "The weather in Berlin is sunny"⟩) :=
  no_reexecution_of_resolved_parts executionsTable
    [⟨"m", "assistant", "",
      some [Part.toolInvocation ⟨"getWeatherInformation", "c3", "Berlin", "result", some "The weather in Berlin is sunny"⟩]⟩]
    [⟨"m", "assistant", "",
      some [Part.toolInvocation ⟨"getWeatherInformation", "c3", "Berlin", "result", some "The weather in Berlin is sunny"⟩]⟩]
    [] []
    ⟨"m", "assistant", "",
      some [Part.toolInvocation ⟨"getWeatherInformation", "c3", "Berlin", "result", some "The weather in Berlin is sunny"⟩]⟩
    [Part.toolInvocation ⟨"getWeatherInformation", "c3", "Berlin", "result", some "The weather in Berlin is sunny"⟩]
    0 ⟨"getWeatherInformation", "c3", "Berlin", "result", some "The weather in Berlin is sunny"⟩
    "The weather in Berlin is sunny"
    rfl rfl rfl rfl rfl rfl (by decide) (by decide)

/-- Claim C4: a ToolInvocationPart of the last message whose toolName has
no Execution Table entry — and likewise one whose state is not `result` —
is passed through reconciliation unchanged regardless of its result
value, with no executor invocation and no stream event for it. -/
theorem unregistered_or_pending_pass_through (E : ExecutionTable)
    (ms out : List Message) (evs : List StreamEvent) (calls : List ExecCall)
    (lm : Message) (ps : List Part) (i : Nat) (ti : ToolInvocation)
    (hrec : reconcile E ms = Except.ok (out, evs, calls))
    (hlast : ms.getLast? = some lm) (hparts : lm.parts = some ps)
    (hp : ps[i]? = some (Part.toolInvocation ti))
    (hcase : (E ti.toolName).isNone ∨ ti.state ≠ "result") :
    processPart E ms (Part.toolInvocation ti) =
        Except.ok (Part.toolInvocation ti, [], []) ∧
      ∃ lm2 ps2, out.getLast? = some lm2 ∧ lm2.parts = some ps2 ∧
        ps2[i]? = some (Part.toolInvocation ti) := by
  have hu : untouched E (Part.toolInvocation ti) := by
    rcases hcase with h | h
    · exact Or.inl h
    · exact Or.inr (Or.inl h)
  exact ⟨untouched_processPart E ms _ hu,
    reconcile_untouched_at E ms out evs calls lm ps i _ hrec hlast hparts hp hu⟩

/-- Claim C4 witness: an auto-executing tool's already-resolved invocation
(`getLocalTime`, absent from the Execution Table) passes through even
with a sentinel-looking result. -/
theorem unregistered_or_pending_pass_through_witness :
    processPart executionsTable
        [⟨"m", "assistant", "",
          some [Part.toolInvocation ⟨"getLocalTime", "c4", "NYC", "result", some APPROVAL.YES⟩]⟩]
        (Part.toolInvocation ⟨"getLocalTime", "c4", "NYC", "result", some APPROVAL.YES⟩) =
        Except.ok (Part.toolInvocation ⟨"getLocalTime", "c4", "NYC", "result", some APPROVAL.YES⟩, [], []) ∧
      ∃ lm2 ps2,
        ([⟨"m", "assistant", "",
           some [Part.toolInvocation ⟨"getLocalTime", "c4", "NYC", "result", some APPROVAL.YES⟩]⟩] :
            List Message).getLast? = some lm2 ∧
        lm2.parts = some ps2 ∧
        ps2[0]? = some (Part.toolInvocation ⟨"getLocalTime", "c4", "NYC", "result", some APPROVAL.YES⟩) :=
  unregistered_or_pending_pass_through executionsTable
    [⟨"m", "assistant", "",
      some [Part.toolInvocation ⟨"getLocalTime", "c4", "NYC", "result", some APPROVAL.YES⟩]⟩]
    [⟨"m", "assistant", "",
      some [Part.toolInvocation ⟨"getLocalTime", "c4", "NYC", "result", some APPROVAL.YES⟩]⟩]
    [] []
    ⟨"m", "assistant", "",
      some [Part.toolInvocation ⟨"getLocalTime", "c4", "NYC", "result", some APPROVAL.YES⟩]⟩
    [Part.toolInvocation ⟨"getLocalTime", "c4", "NYC", "result", some APPROVAL.YES⟩]
    0 ⟨"getLocalTime", "c4", "NYC", "result", some APPROVAL.YES⟩
    rfl rfl rfl rfl (Or.inl (by decide))

/-- Claim C6: reconciliation preserves structure — same message count,
all messages before the last unchanged, the last message with the same
part count and positional order, and each part changed at most in its
invocation's `result` field. -/
theorem reconcile_preserves_structure (E : ExecutionTable)
    (ms out : List Message) (evs : List StreamEvent) (calls : List ExecCall)
    (hrec : reconcile E ms = Except.ok (out, evs, calls)) :
    out.length = ms.length ∧ out.dropLast = ms.dropLast ∧
      ∀ lm, ms.getLast? = some lm →
        ∃ lm2, out.getLast? = some lm2 ∧ lm2.id = lm.id ∧ lm2.role = lm.role ∧
          lm2.content = lm.content ∧
          (lm.parts = none → out = ms) ∧
          ∀ ps, lm.parts = some ps → ∃ ps2, lm2.parts = some ps2 ∧
            ps2.length = ps.length ∧
            ∀ (i : Nat) (p p2 : Part), ps[i]? = some p → ps2[i]? = some p2 →
              differsOnlyInResult p p2 := by
  obtain ⟨lm', hlast', hcase⟩ := reconcile_ok_inv E ms out evs calls hrec
  have hne : ms ≠ [] := by
    intro hnil
    rw [hnil] at hlast'
    exact Option.noConfusion hlast'
  rcases hcase with ⟨hnone, rfl, _, _⟩ | ⟨ps', ts, hps', hts, hout, _, _⟩
  · refine ⟨rfl, rfl, ?_⟩
    intro lm hlast
    rw [hlast'] at hlast
    injection hlast with hlm
    subst hlm
    refine ⟨lm', hlast', rfl, rfl, rfl, fun _ => rfl, ?_⟩
    intro ps hps
    rw [hnone] at hps
    exact Option.noConfusion hps
  · subst hout
    obtain ⟨hlen, hpt⟩ := processParts_pointwise E ms ps' ts hts
    have hlen2 : (ms.dropLast ++ [{ lm' with parts := some (ts.map Prod.fst) }]).length = ms.length := by
      rw [List.length_append, List.length_dropLast, List.length_singleton]
      have : 0 < ms.length := List.length_pos.mpr hne
      omega
    refine ⟨hlen2, List.dropLast_concat, ?_⟩
    intro lm hlast
    rw [hlast'] at hlast
    injection hlast with hlm
    subst hlm
    refine ⟨{ lm' with parts := some (ts.map Prod.fst) }, List.getLast?_concat _,
      rfl, rfl, rfl, ?_, ?_⟩
    · intro hn
      rw [hps'] at hn
      exact Option.noConfusion hn
    · intro ps hps
      rw [hps'] at hps
      injection hps with hps
      subst hps
      refine ⟨ts.map Prod.fst, rfl, by rw [List.length_map, hlen], ?_⟩
      intro i p p2 hp hp2
      obtain ⟨t, hti, hpe⟩ := hpt i p hp
      rw [List.getElem?_map, hti] at hp2
      simp only [Option.map_some', Option.some.injEq] at hp2
      subst hp2
      exact processPart_shape E ms p t.1 t.2.1 t.2.2 hpe

/-- Claim C6 witness: on a two-message transcript whose last message
holds an approved invocation and a text part, the reconciled output has
the same message count, the same earlier messages, the same part count,
and the changed part differs only in its result. -/
theorem reconcile_preserves_structure_witness :
    ∃ lm2, ([⟨"m1", "user", "hi", none⟩,
        ⟨"m2", "assistant", "",
          some [Part.toolInvocation ⟨"getWeatherInformation", "c6", "Oslo", "result", some "The weather in Oslo is sunny"⟩,
                Part.text "done"]⟩] : List Message).getLast? = some lm2 ∧
      lm2.id = "m2" ∧ lm2.role = "assistant" ∧
      ∃ ps2, lm2.parts = some ps2 ∧ ps2.length = 2 := by
  have h := reconcile_preserves_structure executionsTable
    [⟨"m1", "user", "hi", none⟩,
     ⟨"m2", "assistant", "",
       some [Part.toolInvocation ⟨"getWeatherInformation", "c6", "Oslo", "result", some "The weather in Oslo is sunny"⟩,
             Part.text "done"]⟩]
    [⟨"m1", "user", "hi", none⟩,
     ⟨"m2", "assistant", "",
       some [Part.toolInvocation ⟨"getWeatherInformation", "c6", "Oslo", "result", some "The weather in Oslo is sunny"⟩,
             Part.text "done"]⟩]
    [] [] rfl
  obtain ⟨-, -, h3⟩ := h
  obtain ⟨lm2, hlast2, hid, hrole, -, -, hps⟩ := h3
    ⟨"m2", "assistant", "",
      some [Part.toolInvocation ⟨"getWeatherInformation", "c6", "Oslo", "result", some "The weather in Oslo is sunny"⟩,
            Part.text "done"]⟩ rfl
  obtain ⟨ps2, hps2, hlen2, -⟩ := hps
    [Part.toolInvocation ⟨"getWeatherInformation", "c6", "Oslo", "result", some "The weather in Oslo is sunny"⟩,
     Part.text "done"] rfl
  exact ⟨lm2, hlast2, hid, hrole, ps2, hps2, hlen2⟩


theorem processPart_events (E : ExecutionTable) (msgs : List Message) (p : Part)
    (t : Part × List StreamEvent × List ExecCall)
    (h : processPart E msgs p = Except.ok t) :
    specEventsOfPair E p t.1 = t.2.1 := by
  cases p with
  | text s =>
    simp only [processPart, Except.ok.injEq] at h
    subst h
    rfl
  | other k pl =>
    simp only [processPart, Except.ok.injEq] at h
    subst h
    rfl
  | toolInvocation ti =>
    simp only [processPart] at h
    split at h
    next hg =>
      injection h with h
      subst h
      simp only [specEventsOfPair]
      rw [if_neg]
      rintro ⟨h1, h2, -⟩
      rcases hg with hg | hg
      · rw [Option.isNone_iff_eq_none] at hg
        rw [hg] at h1
        exact Bool.noConfusion h1
      · exact hg h2
    next hg =>
      have hstate : ti.state = "result" := not_not.mp fun hh => hg (Or.inr hh)
      have hsome : (E ti.toolName).isSome = true := by
        cases hET : E ti.toolName with
        | none => exact absurd (Or.inl (by rw [hET]; rfl)) hg
        | some f => rfl
      split at h
      next hy =>
        split at h
        next f heq =>
          split at h
          next => exact Except.noConfusion h
          next v heq2 =>
            injection h with h
            subst h
            simp only [specEventsOfPair]
            rw [if_pos ⟨hsome, hstate, Or.inl hy⟩]
        next heq =>
          exact absurd (Or.inl (by rw [heq]; rfl)) hg
      next hy =>
        split at h
        next hn =>
          injection h with h
          subst h
          simp only [specEventsOfPair]
          rw [if_pos ⟨hsome, hstate, Or.inr hn⟩]
        next hn =>
          injection h with h
          subst h
          simp only [specEventsOfPair]
          rw [if_neg]
          rintro ⟨-, -, h3 | h3⟩
          · exact hy h3
          · exact hn h3

theorem processParts_events (E : ExecutionTable) (msgs : List Message)
    (ps : List Part) (ts : List (Part × List StreamEvent × List ExecCall))
    (h : processParts E msgs ps = Except.ok ts) :
    specEvents E (ps.zip (ts.map Prod.fst)) = (ts.map fun t => t.2.1).flatten := by
  induction ps generalizing ts with
  | nil =>
    simp only [processParts] at h
    cases h
    rfl
  | cons q qs ih =>
    obtain ⟨t, ts', hq, hqs, rfl⟩ := processParts_cons_ok_inv E msgs q qs ts h
    simp only [List.map_cons, List.zip_cons_cons, specEvents, List.map_cons, List.flatten_cons]
    rw [processPart_events E msgs q t hq]
    have hih := ih ts' hqs
    simp only [specEvents] at hih
    rw [hih]

/-- Claim C7: the events written to the data stream during reconciliation
are exactly one event per computed part of the last message — carrying
that part's `toolCallId` and its newly computed result — in part order,
and no event for parts passed through unchanged. -/
theorem stream_events_match_computed_parts (E : ExecutionTable)
    (ms out : List Message) (evs : List StreamEvent) (calls : List ExecCall)
    (lm : Message) (ps : List Part)
    (hrec : reconcile E ms = Except.ok (out, evs, calls))
    (hlast : ms.getLast? = some lm) (hparts : lm.parts = some ps) :
    ∃ lm2 ps2, out.getLast? = some lm2 ∧ lm2.parts = some ps2 ∧
      evs = specEvents E (ps.zip ps2) := by
  obtain ⟨lm', hlast', hcase⟩ := reconcile_ok_inv E ms out evs calls hrec
  rw [hlast] at hlast'
  injection hlast' with hlm
  subst hlm
  rcases hcase with ⟨hnone, rfl, _, _⟩ | ⟨ps', ts, hps', hts, hout, hevs, _⟩
  · rw [hparts] at hnone
    exact Option.noConfusion hnone
  · rw [hparts] at hps'
    injection hps' with hps'
    subst hps'
    subst hout
    subst hevs
    exact ⟨{ lm with parts := some (ts.map Prod.fst) }, ts.map Prod.fst,
      List.getLast?_concat _, rfl, (processParts_events E ms ps ts hts).symm⟩

/-- Claim C7 witness: on a last message with one approved
`getWeatherInformation` part and one already-resolved auto-tool part,
exactly one event (for the approved part's `toolCallId`) is emitted. -/
theorem stream_events_match_computed_parts_witness :
    ∃ (lm2 : Message) (ps2 : List Part),
      lm2.parts = some ps2 ∧
      [("cA", "The weather in Paris is sunny")] =
        specEvents executionsTable
          ([Part.toolInvocation ⟨"getWeatherInformation", "cA", "Paris", "result", some APPROVAL.YES⟩,
            Part.toolInvocation ⟨"getLocalTime", "cB", "NYC", "result", some "10am"⟩].zip ps2) := by
  obtain ⟨lm2, ps2, -, hps2, hevs⟩ := stream_events_match_computed_parts executionsTable
    [⟨"m1", "user", "hi", none⟩,
     ⟨"m2", "assistant", "",
       some [Part.toolInvocation ⟨"getWeatherInformation", "cA", "Paris", "result", some APPROVAL.YES⟩,
             Part.toolInvocation ⟨"getLocalTime", "cB", "NYC", "result", some "10am"⟩]⟩]
    [⟨"m1", "user", "hi", none⟩,
     ⟨"m2", "assistant", "",
       some [Part.toolInvocation ⟨"getWeatherInformation", "cA", "Paris", "result", some "The weather in Paris is sunny"⟩,
             Part.toolInvocation ⟨"getLocalTime", "cB", "NYC", "result", some "10am"⟩]⟩]
    [("cA", "The weather in Paris is sunny")]
    [⟨"getWeatherInformation", "Paris",
       ⟨[⟨"user", "hi"⟩, ⟨"assistant", ""⟩], "cA"⟩⟩]
    ⟨"m2", "assistant", "",
      some [Part.toolInvocation ⟨"getWeatherInformation", "cA", "Paris", "result", some APPROVAL.YES⟩,
            Part.toolInvocation ⟨"getLocalTime", "cB", "NYC", "result", some "10am"⟩]⟩
    [Part.toolInvocation ⟨"getWeatherInformation", "cA", "Paris", "result", some APPROVAL.YES⟩,
     Part.toolInvocation ⟨"getLocalTime", "cB", "NYC", "result", some "10am"⟩]
    rfl rfl rfl
  exact ⟨lm2, ps2, hps2, hevs⟩


theorem repairMessage_stuck (m : Message) (ti : ToolInvocation) (rest : List Part)
    (hrole : m.role = "assistant")
    (hps : m.parts = some (Part.toolInvocation ti :: rest))
    (hstate : ti.state = "call") (hres : ti.result = none) :
    repairMessage m = { m with parts := some (Part.text "tool execution failed" :: rest) } := by
  simp only [repairMessage]
  rw [if_pos hrole]
  simp only [hps]
  rw [if_pos ⟨hstate, hres⟩]

theorem repairMessage_eq_of_not_stuck (m : Message) (h : ¬ stuckCall m) :
    repairMessage m = m := by
  simp only [repairMessage]
  split
  next hrole =>
    split
    next ti rest hps =>
      split
      next hcond => exact absurd ⟨hrole, ti, rest, hps, hcond.1, hcond.2⟩ h
      next => rfl
    next => rfl
  next => rfl

/-- Claim C5: Transcript Repair, over the full ordered message list,
replaces the first part of every assistant message stuck in state `call`
without a `result` by a plain text part reading "tool execution failed"
(dropping the invocation part), passes every other message through
unchanged in original order, and is total (never fails). -/
theorem transcript_repair_spec (ms : List Message) :
    (repairMessages ms).length = ms.length ∧
    (∀ (i : Nat) (m : Message) (ti : ToolInvocation) (rest : List Part),
      ms[i]? = some m → m.role = "assistant" →
      m.parts = some (Part.toolInvocation ti :: rest) →
      ti.state = "call" → ti.result = none →
      (repairMessages ms)[i]? =
        some { m with parts := some (Part.text "tool execution failed" :: rest) }) ∧
    (∀ (i : Nat) (m : Message), ms[i]? = some m → ¬ stuckCall m →
      (repairMessages ms)[i]? = some m) := by
  refine ⟨List.length_map _ _, ?_, ?_⟩
  · intro i m ti rest hm hrole hps hstate hres
    rw [repairMessages, List.getElem?_map, hm, Option.map_some',
      repairMessage_stuck m ti rest hrole hps hstate hres]
  · intro i m hm hns
    rw [repairMessages, List.getElem?_map, hm, Option.map_some',
      repairMessage_eq_of_not_stuck m hns]

/-- Claim C5 witness: a transcript with one stuck assistant message and
one ordinary user message — the stuck leading part is replaced, the user
message is untouched, and length is preserved. -/
theorem transcript_repair_spec_witness :
    (repairMessages
        [⟨"u", "user", "hi", none⟩,
         ⟨"a", "assistant", "",
           some [Part.toolInvocation ⟨"browserRender", "x", "5", "call", none⟩,
                 Part.text "after"]⟩]).length = 2 ∧
    (repairMessages
        [⟨"u", "user", "hi", none⟩,
         ⟨"a", "assistant", "",
           some [Part.toolInvocation ⟨"browserRender", "x", "5", "call", none⟩,
                 Part.text "after"]⟩])[1]? =
      some ⟨"a", "assistant", "",
        some [Part.text "tool execution failed", Part.text "after"]⟩ ∧
    (repairMessages
        [⟨"u", "user", "hi", none⟩,
         ⟨"a", "assistant", "",
           some [Part.toolInvocation ⟨"browserRender", "x", "5", "call", none⟩,
                 Part.text "after"]⟩])[0]? =
      some ⟨"u", "user", "hi", none⟩ := by
  have h := transcript_repair_spec
    [⟨"u", "user", "hi", none⟩,
     ⟨"a", "assistant", "",
       some [Part.toolInvocation ⟨"browserRender", "x", "5", "call", none⟩,
             Part.text "after"]⟩]
  refine ⟨h.1, ?_, ?_⟩
  · exact h.2.1 1 _ ⟨"browserRender", "x", "5", "call", none⟩ [Part.text "after"]
      rfl rfl rfl rfl rfl
  · refine h.2.2 0 _ rfl ?_
    rintro ⟨hrole, -⟩
    exact absurd hrole (by decide)

theorem not_stuckCall_repairMessage (m : Message) : ¬ stuckCall (repairMessage m) := by
  by_cases hs : stuckCall m
  · obtain ⟨hrole, ti, rest, hps, hstate, hres⟩ := hs
    rw [repairMessage_stuck m ti rest hrole hps hstate hres]
    rintro ⟨-, ti2, rest2, hps2, -, -⟩
    simp only [Option.some.injEq, List.cons.injEq] at hps2
    exact Part.noConfusion hps2.1
  · rw [repairMessage_eq_of_not_stuck m hs]
    exact hs

theorem repairMessage_idem (m : Message) :
    repairMessage (repairMessage m) = repairMessage m :=
  repairMessage_eq_of_not_stuck _ (not_stuckCall_repairMessage m)

/-- Claim C8: Transcript Repair is idempotent — applying the repair pass
twice to any message list yields the same result as applying it once. -/
theorem transcript_repair_idempotent (ms : List Message) :
    repairMessages (repairMessages ms) = repairMessages ms := by
  simp only [repairMessages, List.map_map]
  exact List.map_eq_map_iff.mpr fun m _ => repairMessage_idem m


/-- Claim C9 counterexample: with an approved part whose executor throws
and a sibling text part in the last message, `processToolCalls` rejects as
a whole — the failing part is not resolved to an error-result string and
the sibling parts' resolutions are never returned. -/
theorem executor_throw_counterexample :
    processToolCalls throwTable
      [⟨"m", "assistant", "",
        some [Part.toolInvocation ⟨"badTool", "c9", "x", "result", some APPROVAL.YES⟩,
              Part.text "sibling"]⟩] =
      Except.error (PtcError.executorThrow "boom") := rfl

theorem processParts_mem_error (E : ExecutionTable) (msgs : List Message)
    (ps : List Part) (p : Part) (e : String)
    (hp : p ∈ ps) (herr : processPart E msgs p = Except.error e) :
    ∃ e2, processParts E msgs ps = Except.error e2 := by
  induction ps with
  | nil => exact absurd hp (List.not_mem_nil p)
  | cons q qs ih =>
    rcases List.mem_cons.mp hp with rfl | hp2
    · refine ⟨e, ?_⟩
      simp only [processParts]
      simp only [herr]
    · cases hq : processPart E msgs q with
      | error e3 =>
        refine ⟨e3, ?_⟩
        simp only [processParts]
        simp only [hq]
      | ok t =>
        obtain ⟨e2, he2⟩ := ih hp2
        refine ⟨e2, ?_⟩
        simp only [processParts]
        simp only [hq]
        simp only [he2]

/-- Claim C9 (amended): a thrown executor exception during reconciliation
of an approved part of the last message propagates — the whole
reconciliation rejects with that family of errors instead of resolving
the failing part to an error-result string and completing the sibling
parts. -/
theorem executor_throw_aborts_reconciliation (E : ExecutionTable)
    (ms : List Message) (lm : Message) (ps : List Part) (p : Part) (e : String)
    (hlast : ms.getLast? = some lm) (hparts : lm.parts = some ps)
    (hp : p ∈ ps) (herr : processPart E ms p = Except.error e) :
    ∃ e2, reconcile E ms = Except.error (PtcError.executorThrow e2) := by
  obtain ⟨e2, he2⟩ := processParts_mem_error E ms ps p e hp herr
  refine ⟨e2, ?_⟩
  simp only [reconcile]
  simp only [hlast]
  simp only [hparts]
  simp only [he2]

/-- Claim C9 (amended) witness: the concrete throwing table aborts
reconciliation of a two-part last message. -/
theorem executor_throw_aborts_reconciliation_witness :
    ∃ e2, reconcile throwTable
      [⟨"m", "assistant", "",
        some [Part.toolInvocation ⟨"badTool", "c9w", "x", "result", some APPROVAL.YES⟩,
              Part.text "sibling"]⟩] =
      Except.error (PtcError.executorThrow e2) :=
  executor_throw_aborts_reconciliation throwTable
    [⟨"m", "assistant", "",
      some [Part.toolInvocation ⟨"badTool", "c9w", "x", "result", some APPROVAL.YES⟩,
            Part.text "sibling"]⟩]
    ⟨"m", "assistant", "",
      some [Part.toolInvocation ⟨"badTool", "c9w", "x", "result", some APPROVAL.YES⟩,
            Part.text "sibling"]⟩
    [Part.toolInvocation ⟨"badTool", "c9w", "x", "result", some APPROVAL.YES⟩,
     Part.text "sibling"]
    (Part.toolInvocation ⟨"badTool", "c9w", "x", "result", some APPROVAL.YES⟩)
    "boom" rfl rfl (List.mem_cons_self _ _) rfl

/-- Claim C10: reconciliation requires a non-empty transcript —
`processToolCalls` on an empty message list fails (the TypeError of
dereferencing the absent last message, modelled as `emptyTranscript`),
while the early return-unchanged branch fires exactly when a last message
exists and its `parts` field is absent. -/
theorem empty_transcript_fails (E : ExecutionTable) :
    processToolCalls E [] = Except.error PtcError.emptyTranscript ∧
    ∀ (pms : List Message) (lm : Message), lm.parts = none →
      reconcile E (pms ++ [lm]) = Except.ok (pms ++ [lm], [], []) := by
  refine ⟨rfl, ?_⟩
  intro pms lm h
  simp only [reconcile, List.getLast?_concat]
  simp only [h]

/-- Claim C10 witness: the empty transcript fails against the concrete
Execution Table, while a one-message transcript whose message has no
`parts` field is returned unchanged. -/
theorem empty_transcript_fails_witness :
    processToolCalls executionsTable [] = Except.error PtcError.emptyTranscript ∧
    reconcile executionsTable [⟨"u", "user", "hi", none⟩] =
      Except.ok ([⟨"u", "user", "hi", none⟩], [], []) :=
  ⟨(empty_transcript_fails executionsTable).1,
    (empty_transcript_fails executionsTable).2 [] ⟨"u", "user", "hi", none⟩ rfl⟩

end Ptc
